import Mathlib

/-!
# Verification of the agent policy engine

A shallow embedding of the Go policy engine (package `policy` of the
kubernetes agentic policy engine repository) together with proofs about
its documented behaviour.

Conventions of the embedding:
* Go maps become association lists with `lookupA` (first match) and
  `storeA` (overwrite-or-append), which matches Go map semantics as the
  lists are only built through `storeA`.
* `time.Time` becomes a `Nat` instant that is passed explicitly (`now`);
  durations become `Nat`.
* `interface{}` request values become the `Request` inductive; failed
  type assertions correspond to the non-matching constructors.
* Fallible Go functions returning `error` become `Except`/`Option`.
* Fields of Go structs that only matter through their nil-ness
  (e.g. `*rego.PreparedEvalQuery`) become `Option` of an abstract payload.
-/

namespace AgentPolicy

/-- `Decision` from types.go: `Deny` is the zero value, `Allow` follows
(Go `iota`). -/
inductive Decision where
  | Deny : Decision
  | Allow : Decision
deriving DecidableEq, Repr

/-- `EnforcementMode` from types.go: `Permissive` is the zero value. -/
inductive EnforcementMode where
  | Permissive : EnforcementMode
  | Enforcing : EnforcementMode
deriving DecidableEq, Repr

open Decision EnforcementMode

/-- First-match association-list lookup; models Go map indexing for lists
built with `storeA` (unique keys). -/
def lookupA {α : Type} : List (String × α) → String → Option α
  | [], _ => none
  | (k, v) :: rest, key => if k = key then some v else lookupA rest key

/-- Overwrite-or-append association-list update; models Go map assignment. -/
def storeA {α : Type} : List (String × α) → String → α → List (String × α)
  | [], key, v => [(key, v)]
  | (k, w) :: rest, key, v =>
      if k = key then (key, v) :: rest else (k, w) :: storeA rest key v

/-- Go `strings.Split(s, sep)` for a one-character separator, over
character lists; always returns at least one (possibly empty) part. -/
def splitOnChar (sep : Char) : List Char → List (List Char)
  | [] => [[]]
  | c :: rest =>
      let r := splitOnChar sep rest
      if c = sep then [] :: r
      else
        match r with
        | [] => [[c]]
        | h :: t => (c :: h) :: t

/-- `cacheEntry` from the decision-cache file. -/
structure CacheEntry where
  decision : Decision
  reason : String
  expiresAt : Nat
deriving DecidableEq, Repr

/-- `DecisionCache`: the entry map plus the TTL.  The hit/miss counters are
not modelled (no claim mentions them). -/
structure DecisionCache where
  entries : List (String × CacheEntry)
  ttl : Nat
deriving DecidableEq, Repr

/-- `NewDecisionCache(ttl)`. -/
def newDecisionCache (ttl : Nat) : DecisionCache := { entries := [], ttl := ttl }

/-- `CacheKey(agentType, toolName)`: `"agentType:toolName"`. -/
def cacheKey (agentType toolName : String) : String := agentType ++ ":" ++ toolName

/-- Result of `DecisionCache.Get`, together with the (possibly mutated)
cache: `Get` deletes an entry it finds expired. -/
structure GetResult where
  decision : Decision
  reason : String
  hit : Bool
  cache : DecisionCache
deriving Repr

/-- Removes the entry stored under `key` (the `entries.Delete` of an
expired entry in `Get`). -/
def deleteKey (l : List (String × CacheEntry)) (key : String) :
    List (String × CacheEntry) :=
  l.filter (fun kv => kv.1 ≠ key)

/-- `DecisionCache.Get`: miss returns `(Deny, "", false)`; an entry with
`expiresAt` strictly before `now` (Go `time.Now().After`) is deleted and
reported as a miss. -/
def cacheGet (c : DecisionCache) (now : Nat) (key : String) : GetResult :=
  match lookupA c.entries key with
  | none => { decision := Deny, reason := "", hit := false, cache := c }
  | some e =>
      if e.expiresAt < now then
        { decision := Deny, reason := "", hit := false,
          cache := { c with entries := deleteKey c.entries key } }
      else
        { decision := e.decision, reason := e.reason, hit := true, cache := c }

/-- `DecisionCache.Set`: stores with `expiresAt = now + ttl`. -/
def cacheSet (c : DecisionCache) (now : Nat) (key : String)
    (decision : Decision) (reason : String) : DecisionCache :=
  { c with entries :=
      storeA c.entries key ⟨decision, reason, now + c.ttl⟩ }

/-- Go `strings.HasPrefix(s, pre)`, by character lists. -/
def hasPref (s pre : String) : Bool :=
  pre.data.isPrefixOf s.data

/-- `DecisionCache.InvalidatePrefix`: removes every entry whose key begins
with the given text.  The count it returns is not modelled. -/
def invalidatePref (c : DecisionCache) (pre : String) : DecisionCache :=
  { c with entries := c.entries.filter (fun kv => !(hasPref kv.1 pre)) }

/-! ## Requests and constraint checking (engine file) -/

/-- A value inside the `map[string]interface{}` request: the engine only
type-asserts `string` (paths, domains) and `int64` (sizes); every other
dynamic type makes those assertions fail, which `other` captures. -/
inductive ParamVal where
  | str : String → ParamVal
  | int : Int → ParamVal
  | other : ParamVal
deriving DecidableEq, Repr

/-- The `request interface{}` argument of `Engine.Evaluate`: either a
`map[string]interface{}` or anything else (including `nil`), on which the
map type assertion fails. -/
inductive Request where
  | map : List (String × ParamVal) → Request
  | nonMap : Request
deriving DecidableEq, Repr

/-- `ToolConstraints` from types.go (the advisory `Timeout` duration is a
`Nat` of nanoseconds; it is recorded, never read by the engine). -/
structure ToolConstraints where
  pathPatterns : List String := []
  allowedDomains : List String := []
  deniedDomains : List String := []
  allowedPorts : List Int := []
  maxSizeBytes : Int := 0
  timeout : Nat := 0
deriving DecidableEq, Repr

/-- `ToolPermission` from types.go. -/
structure ToolPermission where
  tool : String
  action : Decision
  constraints : Option ToolConstraints := none
deriving DecidableEq, Repr

/-- Go `filepath.Match` restricted to the metacharacters this repository
and its policies use: `*` matches any (possibly empty) run of
non-separator characters, `?` matches one non-separator character, every
other character matches itself.  Character classes and backslash escapes
(unused by the repository, its tests and the specification's examples)
are treated as literal characters; `filepath.Match` errors are reported
as non-matches by the caller (`match, _ :=`), so a `Bool` result is
faithful. -/
def globMatchF : Nat → List Char → List Char → Bool
  | 0, _, _ => false
  | _ + 1, [], n => n.isEmpty
  | fuel + 1, '*' :: p, n =>
      globMatchF fuel p n ||
        (match n with
         | [] => false
         | c :: n' => c ≠ '/' && globMatchF fuel ('*' :: p) n')
  | fuel + 1, '?' :: p, n =>
      (match n with
       | [] => false
       | c :: n' => c ≠ '/' && globMatchF fuel p n')
  | fuel + 1, c :: p, n =>
      (match n with
       | [] => false
       | d :: n' => c = d && globMatchF fuel p n')

/-- The matcher with enough fuel for its longest possible recursion
(every recursive call of `globMatchF` shortens the pattern or the path,
so `p.length + n.length + 1` steps always reach a base case). -/
def globMatch (p n : List Char) : Bool :=
  globMatchF (p.length + n.length + 1) p n

/-- `filepath.Match(pattern, path)` on strings. -/
def filepathMatch (pattern path : String) : Bool :=
  globMatch pattern.data path.data

/-- `matchPrefix` from the engine file: a pattern of length `> 2` ending
in `**` matches every path that starts with the pattern minus the two
stars (so `/workspace/**` keeps the trailing `/` in the required start).
Go's byte slicing becomes character-list slicing (all patterns in the
repository and the specification are ASCII). -/
def matchPrefixPat (pattern path : String) : Bool :=
  let p := pattern.data
  if p.length > 2 && (p.drop (p.length - 2) = ['*', '*']) then
    let pre := p.take (p.length - 2)
    decide (path.data.length ≥ pre.length) && (path.data.take pre.length = pre)
  else
    false

/-- The per-pattern disjunction inside `checkConstraints`' path loop:
`filepath.Match` first, then the `matchPrefix` directory check. -/
def patternMatches (pattern path : String) : Bool :=
  filepathMatch pattern path || matchPrefixPat pattern path

/-- The path-constraint loop of `checkConstraints`: some pattern in the
list accepts the path. -/
def pathOK (patterns : List String) (path : String) : Bool :=
  patterns.any (fun pattern => patternMatches pattern path)

/-- `matchDomain` from the engine file: `*` matches everything;
`*.x.y` matches exactly the strict sub-domains of `x.y` (the domain must
be longer than `.x.y` and end with it); otherwise literal equality. -/
def matchDomain (pattern domain : String) : Bool :=
  let p := pattern.data
  let d := domain.data
  if p = ['*'] then true
  else
    match p with
    | '*' :: '.' :: _ =>
        let suffix := p.drop 1
        decide (d.length > suffix.length) &&
          (d.drop (d.length - suffix.length) = suffix)
    | _ => p = d

/-- `checkConstraints` from the engine file.  A non-map request passes; a
constraint whose request field is absent (or of the wrong dynamic type)
is non-binding. -/
def checkConstraints (constraints : ToolConstraints) (request : Request) : Bool :=
  match request with
  | Request.nonMap => true
  | Request.map params =>
      let pathPass :=
        if constraints.pathPatterns.length > 0 then
          match lookupA params "path" with
          | some (ParamVal.str path) => pathOK constraints.pathPatterns path
          | _ => true
        else true
      let allowedPass :=
        if constraints.allowedDomains.length > 0 then
          match lookupA params "domain" with
          | some (ParamVal.str domain) =>
              constraints.allowedDomains.any (fun d => matchDomain d domain)
          | _ => true
        else true
      let deniedPass :=
        if constraints.deniedDomains.length > 0 then
          match lookupA params "domain" with
          | some (ParamVal.str domain) =>
              ¬ constraints.deniedDomains.any (fun d => matchDomain d domain)
          | _ => true
        else true
      let sizePass :=
        if constraints.maxSizeBytes > 0 then
          match lookupA params "size" with
          | some (ParamVal.int size) => ¬ (size > constraints.maxSizeBytes)
          | _ => true
        else true
      pathPass && allowedPass && deniedPass && sizePass

/-! ## OPA evaluation (opa.go) -/

/-- A dynamic OPA result value (`interface{}` in Go): the code
type-asserts `map[string]interface{}`, `bool` and (for the `reason`
field) `string`; `num`/`other` stand for the dynamic types on which all
those assertions fail. -/
inductive JVal where
  | bool : Bool → JVal
  | str : String → JVal
  | num : Int → JVal
  | obj : List (String × JVal) → JVal
  | other : JVal

/-- `rego.Result`: the list of expression values (only
`Expressions[0].Value` is read). -/
structure RegoResultM where
  expressions : List JVal

/-- Outcome of `PreparedEvalQuery.Eval`: either an error or a
`rego.ResultSet`. -/
inductive QueryOutcome where
  | err : String → QueryOutcome
  | ok : List RegoResultM → QueryOutcome

/-- `OPAAgentInput` from opa.go. -/
structure OPAAgentInput where
  type : String
  sandboxID : String
  tenantID : String
  sessionID : String
  mtsLabel : String

/-- `OPAPolicyInput` from opa.go. -/
structure OPAPolicyInput where
  name : String
  mtsLabel : String

/-- `OPAInput` from opa.go: the structured input handed to the prepared
query. -/
structure OPAInputM where
  tool : String
  request : List (String × ParamVal)
  agent : OPAAgentInput
  policy : OPAPolicyInput

/-- `OPAPolicy` from opa.go.  The prepared query is modelled as the
function it denotes, from evaluation input to a result set or an error;
`CompiledAt` is the load instant. -/
structure OPAPolicyM where
  name : String
  agentTypes : List String
  query : OPAInputM → QueryOutcome
  regoModule : String
  mtsLabel : String
  mode : EnforcementMode
  compiledAt : Nat

/-- `OPAEvaluator`: its own agent-type-keyed policy map.  The shared
cache and audit sink references are not duplicated here: the claims only
exercise the evaluator through `Engine.evaluateOPA`, which uses the
engine's cache and sink. -/
structure OPAEvaluatorM where
  policies : List (String × OPAPolicyM)
  mode : EnforcementMode

/-- The `reason` extraction at the top of `extractDecision`:
`"policy decision"` unless the object carries a string `reason`. -/
def reasonOf (fields : List (String × JVal)) : String :=
  match lookupA fields "reason" with
  | some (JVal.str r) => r
  | _ => "policy decision"

/-- The record branch of `OPAEvaluator.extractDecision`: MTS first
(present-and-false denies), then explicit deny, then allow, then the
fail-closed default. -/
def extractFromObj (fields : List (String × JVal)) : Decision × String :=
  let reason := reasonOf fields
  match lookupA fields "mts" with
  | some (JVal.bool false) => (Deny, "MTS violation: " ++ reason)
  | _ =>
      match lookupA fields "deny" with
      | some (JVal.bool true) => (Deny, reason)
      | _ =>
          match lookupA fields "allow" with
          | some (JVal.bool true) => (Allow, reason)
          | _ => (Deny, "denied by default: " ++ reason)

/-- `OPAEvaluator.extractDecision`.  The Go function also returns an
`error` that is `nil` on every path, so the error component is dropped
here. -/
def extractDecision (result : RegoResultM) : Decision × String :=
  match result.expressions with
  | [] => (Deny, "no expressions in OPA result")
  | value :: _ =>
      match value with
      | JVal.obj fields => extractFromObj fields
      | JVal.bool true => (Allow, "allowed by OPA policy")
      | JVal.bool false => (Deny, "denied by OPA policy")
      | _ => (Deny, "unexpected OPA result type")

/-- `AgentContext` from types.go. -/
structure AgentContextM where
  agentType : String
  sandboxID : String := ""
  tenantID : String := ""
  sessionID : String := ""
  mtsLabel : String := ""
  policyRef : String := ""
deriving DecidableEq, Repr

/-- The `OPAInput` value built by `OPAEvaluator.Evaluate` from the agent
context, the tool, the request map, and the looked-up policy. -/
def opaInputOf (agent : AgentContextM) (toolName : String)
    (request : List (String × ParamVal)) (policy : OPAPolicyM) : OPAInputM :=
  { tool := toolName, request := request,
    agent := { type := agent.agentType, sandboxID := agent.sandboxID,
               tenantID := agent.tenantID, sessionID := agent.sessionID,
               mtsLabel := agent.mtsLabel },
    policy := { name := policy.name, mtsLabel := policy.mtsLabel } }

/-- `OPAEvaluator.Evaluate`: decision, reason, and whether a non-nil
error was returned (true exactly when the prepared query itself
errored). -/
def opaEvaluate (ev : OPAEvaluatorM) (agent : AgentContextM)
    (toolName : String) (request : List (String × ParamVal)) :
    Decision × String × Bool :=
  match lookupA ev.policies agent.agentType with
  | none => (Deny, "no OPA policy defined for agent type", false)
  | some policy =>
      match policy.query (opaInputOf agent toolName request policy) with
      | QueryOutcome.err msg =>
          (Deny, "OPA evaluation error: " ++ msg, true)
      | QueryOutcome.ok [] => (Deny, "OPA returned no results", false)
      | QueryOutcome.ok (r :: _) =>
          let dr := extractDecision r
          (dr.1, dr.2, false)

/-! ## Compiled policies and the engine (engine file, types.go) -/

/-- `CompiledPolicy` from types.go.  `preparedQuery` models the
`*rego.PreparedEvalQuery` pointer: `none` is Go `nil`; the payload is the
function the prepared query denotes. -/
structure CompiledPolicyM where
  name : String
  agentTypes : List String
  defaultAction : Decision
  toolTable : List (String × ToolPermission)
  mode : EnforcementMode
  mtsLabel : String
  compiledAt : Nat
  regoModule : String := ""
  preparedQuery : Option (OPAInputM → QueryOutcome) := none
  opaEnabled : Bool := false

/-- `AuditEvent` from types.go.  The wall-clock `Timestamp` and the
time-derived `RequestID` are not modelled; every claim about audit events
concerns the decision, reason and `Cached` flag. -/
structure AuditEventM where
  agent : AgentContextM
  tool : String
  decision : Decision
  reason : String
  cached : Bool
deriving DecidableEq, Repr

/-- `Engine`.  `hasAudit` models whether an `AuditSink` is installed
(`e.audit != nil`); emitted events are collected in evaluation results. -/
structure EngineM where
  policies : List (String × CompiledPolicyM)
  cache : DecisionCache
  hasAudit : Bool
  mode : EnforcementMode
  useOPA : Bool
  opaEval : Option OPAEvaluatorM

/-- `NewEngine()` before options are applied: Permissive, 60s TTL (here
60_000_000_000 ns, recorded as an abstract `Nat` tick count), no sink, no
OPA. -/
def newEngine (ttl : Nat) : EngineM :=
  { policies := [], cache := newDecisionCache ttl, hasAudit := false,
    mode := Permissive, useOPA := false, opaEval := none }

/-- `Engine.applyMode`: Permissive turns a computed `Deny` into a
returned `Allow`; everything else passes through. -/
def applyMode (mode : EnforcementMode) (decision : Decision) : Decision :=
  if mode = Permissive ∧ decision = Deny then Allow else decision

/-- `Engine.shouldUseOPA`. -/
def shouldUseOPA (e : EngineM) (policy : CompiledPolicyM) : Bool :=
  e.useOPA && policy.opaEnabled && policy.preparedQuery.isSome

/-- `Engine.evaluatePolicy`: the legacy table path. -/
def evaluatePolicy (policy : CompiledPolicyM) (toolName : String)
    (request : Request) : Decision × String :=
  match lookupA policy.toolTable toolName with
  | some perm =>
      if perm.action = Deny then (Deny, "tool explicitly denied by policy")
      else
        match perm.constraints with
        | some constraints =>
            if ¬ checkConstraints constraints request then
              (Deny, "constraint violation")
            else (Allow, "tool explicitly allowed by policy")
        | none => (Allow, "tool explicitly allowed by policy")
  | none =>
      if policy.defaultAction = Allow then (Allow, "allowed by default policy")
      else (Deny, "denied by default policy")

/-- `Engine.evaluateOPA`: converts a non-map request to an empty map,
delegates to the evaluator, converts an evaluator error to a fail-closed
`Deny`, and fails closed when no evaluator is initialized. -/
def engineEvaluateOPA (e : EngineM) (agent : AgentContextM)
    (toolName : String) (request : Request) : Decision × String :=
  let params :=
    match request with
    | Request.map ps => ps
    | Request.nonMap => []
  match e.opaEval with
  | some ev =>
      let (decision, reason, isErr) := opaEvaluate ev agent toolName params
      if isErr then (Deny, reason) else (decision, reason)
  | none => (Deny, "OPA evaluator not initialized")

/-- The result of one `Engine.Evaluate` call: the mode-adjusted returned
decision, the always-`nil` Go error, the computed (underlying) decision
and reason as cached and audited, the updated engine, and the events
passed to the audit sink. -/
structure EvalResultM where
  returned : Decision
  error : Option String
  underlying : Decision
  reason : String
  state : EngineM
  events : List AuditEventM

/-- The common tail of every `Engine.Evaluate` branch: emit the audit
event (when a sink is installed), apply the enforcement mode, return a
`nil` error. -/
def finishEval (e : EngineM) (agent : AgentContextM) (toolName : String)
    (decision : Decision) (reason : String) (cached : Bool)
    (cache : DecisionCache) : EvalResultM :=
  { returned := applyMode e.mode decision,
    error := none,
    underlying := decision,
    reason := reason,
    state := { e with cache := cache },
    events :=
      if e.hasAudit then
        [{ agent := agent, tool := toolName, decision := decision,
           reason := reason, cached := cached }]
      else [] }

/-- `Engine.Evaluate` at instant `now`: cache lookup, policy lookup
(fail-closed Deny when absent), backend dispatch, cache store, audit,
mode application. -/
def evaluate (e : EngineM) (now : Nat) (agent : AgentContextM)
    (toolName : String) (request : Request) : EvalResultM :=
  let key := cacheKey agent.agentType toolName
  let g := cacheGet e.cache now key
  if g.hit then
    finishEval e agent toolName g.decision g.reason true g.cache
  else
    match lookupA e.policies agent.agentType with
    | none =>
        finishEval e agent toolName Deny "no policy defined for agent type"
          false (cacheSet g.cache now key Deny "no policy defined for agent type")
    | some policy =>
        let dr :=
          if shouldUseOPA e policy then
            engineEvaluateOPA e agent toolName request
          else
            evaluatePolicy policy toolName request
        finishEval e agent toolName dr.1 dr.2 false
          (cacheSet g.cache now key dr.1 dr.2)

/-- `Engine.LoadPolicy`: insert/replace, then invalidate
`"{agentType}:"`-keyed cache entries. -/
def loadPolicy (e : EngineM) (agentType : String) (policy : CompiledPolicyM) :
    EngineM :=
  { e with policies := storeA e.policies agentType policy,
           cache := invalidatePref e.cache (agentType ++ ":") }

/-- Association-list removal (Go `delete`). -/
def removeA {α : Type} (l : List (String × α)) (key : String) :
    List (String × α) :=
  l.filter (fun kv => kv.1 ≠ key)

/-- `Engine.RemovePolicy`: delete, then invalidate. -/
def removePolicy (e : EngineM) (agentType : String) : EngineM :=
  { e with policies := removeA e.policies agentType,
           cache := invalidatePref e.cache (agentType ++ ":") }

/-! ## Policy compilation (engine file) -/

/-- `CompilePolicy`: builds the tool table by successive map insertion
(later duplicates overwrite), legacy mode (`OPAEnabled = false`).  It has
no failure path: its Go signature returns a bare `*CompiledPolicy`. -/
def compilePolicy (name : String) (agentTypes : List String)
    (defaultAction : Decision) (permissions : List ToolPermission)
    (mode : EnforcementMode) (mtsLabel : String) (now : Nat) :
    CompiledPolicyM :=
  { name := name, agentTypes := agentTypes, defaultAction := defaultAction,
    toolTable := permissions.foldl (fun t p => storeA t p.tool p) [],
    mode := mode, mtsLabel := mtsLabel, compiledAt := now,
    regoModule := "", preparedQuery := none, opaEnabled := false }

/-- `CompilePolicyWithOPA`: the base `CompilePolicy`, plus the Rego
module; fails exactly when `PrepareRegoQuery` (modelled by the
`prepare` argument, the external OPA compiler) fails. -/
def compilePolicyWithOPA (name : String) (agentTypes : List String)
    (defaultAction : Decision) (permissions : List ToolPermission)
    (mode : EnforcementMode) (mtsLabel : String) (regoModule : String)
    (now : Nat)
    (prepare : String → Except String (OPAInputM → QueryOutcome)) :
    Except String CompiledPolicyM :=
  let base := compilePolicy name agentTypes defaultAction permissions mode
    mtsLabel now
  match prepare regoModule with
  | Except.error e =>
      Except.error ("failed to compile Rego module: " ++ e)
  | Except.ok prepared =>
      Except.ok { base with regoModule := regoModule, opaEnabled := true,
                            preparedQuery := some prepared }

/-- The tool-name pattern `^[a-z][a-z0-9]*(\.[a-z][a-z0-9]*)*$`: it
appears in this repository only as the declarative-schema validation
marker on the `Tool` field of the policy resource (handler file); no Go
function in the repository checks it. -/
def validToolSeg (s : List Char) : Bool :=
  match s with
  | [] => false
  | c :: rest =>
      ('a' ≤ c && c ≤ 'z') &&
        rest.all (fun d => ('a' ≤ d && d ≤ 'z') || ('0' ≤ d && d ≤ '9'))

/-- A tool name is valid when it is a non-empty `.`-separated sequence of
segments, each a lower-case letter followed by lower-case letters or
digits. -/
def validToolName (s : String) : Bool :=
  (splitOnChar '.' s.data).all validToolSeg

/-! ## MTS labels (mts.go) -/

/-- `MTSLabel`: sensitivity level and category compartments (Go `int` is
64-bit; `Int` here, with the 64-bit bound carried by validity
hypotheses where it matters). -/
structure MTSLabel where
  sensitivity : Int
  categories : List Int
deriving DecidableEq, Repr

/-- `MaxCategory`. -/
def maxCategory : Int := 1023

/-- The largest Go `int` value (`int64`), as a `Nat`, used by the
`strconv.Atoi` range check. -/
def maxInt64 : Nat := 9223372036854775807

/-- `containsAll(a, b)` from mts.go: the linear merge over sorted lists.
The `for j < len(a) && a[j] < b[i]` advance is `dropWhile`; the loop then
requires the next element of `a` to equal `b[i]` and keeps `j` there. -/
def containsAll (a : List Int) : List Int → Bool
  | [] => true
  | y :: ys =>
      match a.dropWhile (fun x => x < y) with
      | [] => false
      | x :: xs => x = y && containsAll (x :: xs) ys

/-- `MTSLabel.CanAccess` including the Go nil-receiver/nil-argument rule
(`none` is a nil pointer). -/
def canAccess : Option MTSLabel → Option MTSLabel → Bool
  | none, _ => true
  | _, none => true
  | some l, some obj =>
      if l.sensitivity < obj.sensitivity then false
      else if l.categories.isEmpty then obj.categories.isEmpty
      else if obj.categories.isEmpty then true
      else containsAll l.categories obj.categories

/-- `MTSLabel.Equals`. -/
def labelEquals : Option MTSLabel → Option MTSLabel → Bool
  | none, none => true
  | none, some _ => false
  | some _, none => false
  | some l, some o => l.sensitivity = o.sensitivity && l.categories = o.categories

/-! ### Label strings (ParseMTSLabel / String) -/

/-- The ASCII fragment of Go `unicode.IsSpace` (space, tab, newline,
vertical tab, form feed, carriage return); the labels of this repository
and of the specification are ASCII. -/
def isWSB (c : Char) : Bool :=
  c.toNat = 32 || c.toNat = 9 || c.toNat = 10 ||
    c.toNat = 11 || c.toNat = 12 || c.toNat = 13

/-- Go `strings.TrimSpace` over character lists. -/
def trimChars (cs : List Char) : List Char :=
  ((cs.dropWhile isWSB).reverse.dropWhile isWSB).reverse

/-- Go `strings.SplitN(s, sep, 2)` shape: `none` when the separator does
not occur (one part), otherwise the pieces before and after its first
occurrence. -/
def splitFirst (sep : Char) : List Char → Option (List Char × List Char)
  | [] => none
  | c :: rest =>
      if c = sep then some ([], rest)
      else (splitFirst sep rest).map (fun ab => (c :: ab.1, ab.2))

/-- `'0' ≤ c && c ≤ '9'` by code points. -/
def isDigitB (c : Char) : Bool :=
  48 ≤ c.toNat && c.toNat ≤ 57

/-- The numeric value of a digit string, accumulated left to right
(`c - '0'` per character), as `strconv` does. -/
def valOfDigits (cs : List Char) : Nat :=
  cs.foldl (fun a c => a * 10 + (c.toNat - 48)) 0

/-- The digits-only body of `strconv.Atoi`: at least one character, all
digits. -/
def parseDigits (cs : List Char) : Option Nat :=
  if cs = [] then none
  else if cs.all isDigitB then some (valOfDigits cs) else none

/-- Go `strconv.Atoi`: optional sign, digits, and the `int64` range check
(out-of-range input is an error, which the label parser treats as
invalid). -/
def goAtoi (cs : List Char) : Option Int :=
  match cs with
  | [] => none
  | c :: rest =>
      if c = '+' then
        (parseDigits rest).bind
          (fun v => if v ≤ maxInt64 then some (v : Int) else none)
      else if c = '-' then
        (parseDigits rest).bind
          (fun v => if v ≤ maxInt64 + 1 then some (-(v : Int)) else none)
      else
        (parseDigits cs).bind
          (fun v => if v ≤ maxInt64 then some (v : Int) else none)

/-- The digit character of `d` (for `d < 10`), code point `48 + d`. -/
def digitChar (d : Nat) : Char := Char.ofNat (48 + d)

/-- Decimal digits of `n`, most significant first, via structural fuel
(every step divides by ten, so `n + 1` steps suffice; the accumulator
collects digits least-significant-first into the output). -/
def natToCharsAux : Nat → Nat → List Char → List Char
  | 0, _, acc => acc
  | fuel + 1, n, acc =>
      if n < 10 then digitChar n :: acc
      else natToCharsAux fuel (n / 10) (digitChar (n % 10) :: acc)

/-- `fmt.Sprintf("%d", n)` for `n : Nat`. -/
def natToChars (n : Nat) : List Char := natToCharsAux (n + 1) n []

/-- `fmt.Sprintf("%d", i)` for `i : Int`. -/
def intToChars (i : Int) : List Char :=
  if i < 0 then '-' :: natToChars (-i).toNat else natToChars i.toNat

/-- `strings.Join(parts, ",")` over character lists. -/
def joinComma : List (List Char) → List Char
  | [] => []
  | [p] => p
  | p :: rest => p ++ ',' :: joinComma rest

/-- `MTSLabel.String` for a non-nil label: `s<sens>` or
`s<sens>:c<cat>,...` with the categories as stored. -/
def labelChars (l : MTSLabel) : List Char :=
  if l.categories = [] then 's' :: intToChars l.sensitivity
  else
    ('s' :: intToChars l.sensitivity) ++
      ':' :: joinComma (l.categories.map (fun c => 'c' :: intToChars c))

/-- `MTSLabel.String` including the nil receiver (empty string). -/
def labelCharsOpt : Option MTSLabel → List Char
  | none => []
  | some l => labelChars l

/-- The two error values of mts.go: `ErrInvalidMTSLabel` and
`ErrCategoryOutOfRange`. -/
inductive MTSErr where
  | invalidFormat : MTSErr
  | categoryOutOfRange : MTSErr
deriving DecidableEq, Repr

/-- One category string of `ParseMTSLabel`: trim, require the `c` prefix,
`Atoi`, and the `[0, MaxCategory]` range check. -/
def parseCat (cs : List Char) : Except MTSErr Int :=
  match trimChars cs with
  | [] => Except.error MTSErr.invalidFormat
  | ch :: numStr =>
      if ch = 'c' then
        match goAtoi numStr with
        | none => Except.error MTSErr.invalidFormat
        | some n =>
            if n < 0 || n > maxCategory then
              Except.error MTSErr.categoryOutOfRange
            else Except.ok n
      else Except.error MTSErr.invalidFormat

/-- The category loop of `ParseMTSLabel`. -/
def parseCats : List (List Char) → Except MTSErr (List Int)
  | [] => Except.ok []
  | c :: rest =>
      match parseCat c with
      | Except.error e => Except.error e
      | Except.ok n =>
          match parseCats rest with
          | Except.error e => Except.error e
          | Except.ok ns => Except.ok (n :: ns)

/-- The insertion step of insertion sort is extensionally `sort.Ints` on
the lists at hand (a total order on `Int`, equal elements
indistinguishable), and `dedupSorted` is the `prev := -1` consecutive
de-duplication loop of `uniqueSorted`. -/
def dedupSorted : List Int → Int → List Int
  | [], _ => []
  | c :: rest, prev =>
      if c ≠ prev then c :: dedupSorted rest c else dedupSorted rest prev

/-- `uniqueSorted` from mts.go: empty in, empty out; otherwise sort
ascending and drop consecutive duplicates starting from the `-1`
sentinel. -/
def uniqueSorted (cats : List Int) : List Int :=
  if cats = [] then cats
  else dedupSorted (cats.insertionSort (· ≤ ·)) (-1)

/-- The sensitivity part of `ParseMTSLabel`: the pre-colon part must
start with `s` and its remainder must `Atoi` to a non-negative value. -/
def parseSens (p0 : List Char) : Except MTSErr Int :=
  match p0 with
  | [] => Except.error MTSErr.invalidFormat
  | ch :: sensStr =>
      if ch = 's' then
        match goAtoi sensStr with
        | none => Except.error MTSErr.invalidFormat
        | some sens =>
            if sens < 0 then Except.error MTSErr.invalidFormat
            else Except.ok sens
      else Except.error MTSErr.invalidFormat

/-- The body of `ParseMTSLabel` after `TrimSpace` (the Go function
reassigns `s = TrimSpace(s)`, so the remainder is a function of the
trimmed string): split at the first colon, parse the sensitivity from
the first part, and — when a non-empty second part exists — parse,
sort and de-duplicate the categories. -/
def parseTrimmed (s : List Char) : Except MTSErr MTSLabel :=
  match splitFirst ':' s with
  | none =>
      (match parseSens s with
       | Except.error e => Except.error e
       | Except.ok sens => Except.ok ⟨sens, []⟩)
  | some (p0, p1) =>
      (match parseSens p0 with
       | Except.error e => Except.error e
       | Except.ok sens =>
           if p1 = [] then Except.ok ⟨sens, []⟩
           else
             match parseCats (splitOnChar ',' p1) with
             | Except.error e => Except.error e
             | Except.ok cats => Except.ok ⟨sens, uniqueSorted cats⟩)

/-- `ParseMTSLabel`: the empty string is the default label; otherwise
trim and parse `s<N>(:c<K>(,c<K>)*)?`. -/
def parseMTSLabel (cs : List Char) : Except MTSErr MTSLabel :=
  if cs = [] then Except.ok ⟨0, []⟩
  else parseTrimmed (trimChars cs)

/-- A label the Go type system can hold whose fields satisfy the
documented invariants: non-negative sensitivity within `int64`, and a
strictly ascending (hence duplicate-free) category list within
`[0, MaxCategory]`. -/
def validLabel (l : MTSLabel) : Prop :=
  0 ≤ l.sensitivity ∧ l.sensitivity ≤ (maxInt64 : Int) ∧
    l.categories.Sorted (· < ·) ∧
    ∀ c ∈ l.categories, 0 ≤ c ∧ c ≤ maxCategory

/-! ## Engine lemmas -/

theorem lookupA_storeA_self {α : Type} (l : List (String × α)) (k : String) (v : α) :
    lookupA (storeA l k v) k = some v := by
  induction l with
  | nil => simp [storeA, lookupA]
  | cons hd tl ih =>
      obtain ⟨k', v'⟩ := hd
      by_cases h : k' = k <;> simp [storeA, lookupA, h, ih]

theorem invalidatePref_clears (c : DecisionCache) (pre : String) :
    (invalidatePref c pre).entries.all (fun kv => !(hasPref kv.1 pre)) = true := by
  simp only [invalidatePref, List.all_eq_true]
  intro kv hkv
  exact (List.mem_filter.mp hkv).2

/-- Every `Engine.Evaluate` branch ends in `finishEval`. -/
theorem evaluate_shape (e : EngineM) (now : Nat) (agent : AgentContextM)
    (toolName : String) (request : Request) :
    ∃ d r c cache,
      evaluate e now agent toolName request =
        finishEval e agent toolName d r c cache := by
  unfold evaluate
  dsimp only
  split
  · exact ⟨_, _, _, _, rfl⟩
  · cases hpol : lookupA e.policies agent.agentType with
    | none => exact ⟨_, _, _, _, rfl⟩
    | some policy => exact ⟨_, _, _, _, rfl⟩

/-- On a fresh key (no cache entry at all) `Engine.Evaluate` computes a
decision and stores it under that key with the call's instant. -/
theorem evaluate_miss (e : EngineM) (now : Nat) (agent : AgentContextM)
    (toolName : String) (request : Request)
    (hfresh : lookupA e.cache.entries (cacheKey agent.agentType toolName) = none) :
    ∃ d r,
      evaluate e now agent toolName request =
        finishEval e agent toolName d r false
          (cacheSet e.cache now (cacheKey agent.agentType toolName) d r) := by
  have hg : cacheGet e.cache now (cacheKey agent.agentType toolName) =
      { decision := Deny, reason := "", hit := false, cache := e.cache } := by
    unfold cacheGet
    rw [hfresh]
  cases hpol : lookupA e.policies agent.agentType with
  | none =>
      exact ⟨Deny, "no policy defined for agent type",
        by simp only [evaluate]; rw [hg, hpol]; rfl⟩
  | some policy =>
      exact ⟨_, _, by simp only [evaluate]; rw [hg, hpol]; rfl⟩

/-! ## Claim theorems: engine behaviour -/

/-- C1.  For an engine whose policy map has no entry for the agent type
(and whose cache does not answer for the key, i.e. the decision is
actually computed), `Evaluate` computes the underlying decision `Deny`
with reason `"no policy defined for agent type"`; the returned decision
is `Deny` in `Enforcing` mode and `Allow` in `Permissive` mode, and the
audit event emitted to an installed sink records `Deny`. -/
theorem fail_closed_no_policy (e : EngineM) (now : Nat) (agent : AgentContextM)
    (toolName : String) (request : Request)
    (hpol : lookupA e.policies agent.agentType = none)
    (hmiss : (cacheGet e.cache now (cacheKey agent.agentType toolName)).hit = false) :
    (evaluate e now agent toolName request).underlying = Deny ∧
    (evaluate e now agent toolName request).reason =
      "no policy defined for agent type" ∧
    (evaluate e now agent toolName request).returned =
      (if e.mode = Enforcing then Deny else Allow) ∧
    (e.hasAudit = true →
      (evaluate e now agent toolName request).events =
        [{ agent := agent, tool := toolName, decision := Deny,
           reason := "no policy defined for agent type", cached := false }]) := by
  have h : evaluate e now agent toolName request =
      finishEval e agent toolName Deny "no policy defined for agent type" false
        (cacheSet (cacheGet e.cache now (cacheKey agent.agentType toolName)).cache
          now (cacheKey agent.agentType toolName) Deny
          "no policy defined for agent type") := by
    simp only [evaluate]
    rw [hmiss, hpol]
    simp
  rw [h]
  refine ⟨rfl, rfl, ?_, ?_⟩
  · rcases hm : e.mode with _ | _ <;> simp [finishEval, applyMode, hm]
  · intro ha
    simp [finishEval, ha]

/-- C1 witness: a concrete engine with no policies, an empty cache,
Enforcing mode and a sink installed denies with the documented reason. -/
theorem fail_closed_no_policy_witness :
    (evaluate
        { policies := [], cache := newDecisionCache 60, hasAudit := true,
          mode := Enforcing, useOPA := false, opaEval := none }
        0 { agentType := "unknown-agent" } "file.read" Request.nonMap).underlying
        = Deny ∧
    (evaluate
        { policies := [], cache := newDecisionCache 60, hasAudit := true,
          mode := Enforcing, useOPA := false, opaEval := none }
        0 { agentType := "unknown-agent" } "file.read" Request.nonMap).returned
        = Deny := by
  have h := fail_closed_no_policy
    { policies := [], cache := newDecisionCache 60, hasAudit := true,
      mode := Enforcing, useOPA := false, opaEval := none }
    0 { agentType := "unknown-agent" } "file.read" Request.nonMap
    rfl rfl
  exact ⟨h.1, by rw [h.2.2.1]; rfl⟩

/-- C3.  In `Permissive` mode the returned decision is always `Allow`
and in `Enforcing` mode it equals the computed decision verbatim, for
every evaluation; every emitted audit event carries the computed
(underlying) decision, not the mode-adjusted one. -/
theorem enforcement_mode_semantics (e : EngineM) (now : Nat)
    (agent : AgentContextM) (toolName : String) (request : Request) :
    (e.mode = Permissive →
      (evaluate e now agent toolName request).returned = Allow) ∧
    (e.mode = Enforcing →
      (evaluate e now agent toolName request).returned =
        (evaluate e now agent toolName request).underlying) ∧
    (∀ ev ∈ (evaluate e now agent toolName request).events,
      ev.decision = (evaluate e now agent toolName request).underlying) := by
  obtain ⟨d, r, c, cache, heq⟩ := evaluate_shape e now agent toolName request
  rw [heq]
  refine ⟨?_, ?_, ?_⟩
  · intro hm
    cases d <;> simp [finishEval, applyMode, hm]
  · intro hm
    cases d <;> simp [finishEval, applyMode, hm]
  · intro ev hev
    by_cases ha : e.hasAudit <;> simp [finishEval, ha] at hev
    · rw [hev]
      rfl

/-- C3 witness: a Permissive engine with a default-deny empty policy
returns `Allow` for an unlisted tool while the audit event says `Deny`. -/
theorem enforcement_mode_semantics_witness :
    (evaluate
        { policies := [("a", compilePolicy "p" ["a"] Deny [] Permissive "" 0)],
          cache := newDecisionCache 60, hasAudit := true,
          mode := Permissive, useOPA := false, opaEval := none }
        0 { agentType := "a" } "shell.execute" Request.nonMap).returned
      = Allow := by
  exact (enforcement_mode_semantics
    { policies := [("a", compilePolicy "p" ["a"] Deny [] Permissive "" 0)],
      cache := newDecisionCache 60, hasAudit := true,
      mode := Permissive, useOPA := false, opaEval := none }
    0 { agentType := "a" } "shell.execute" Request.nonMap).1 rfl

/-- C10.  `Engine.Evaluate` returns a `nil` error on every path: the
missing-policy branch, the cache-hit branch, non-map requests, and both
evaluation backends (OPA failures included) surface only as a decision
with a reason. -/
theorem evaluate_never_errors (e : EngineM) (now : Nat)
    (agent : AgentContextM) (toolName : String) (request : Request) :
    (evaluate e now agent toolName request).error = none := by
  obtain ⟨d, r, c, cache, heq⟩ := evaluate_shape e now agent toolName request
  rw [heq]
  rfl

/-- C7.  Right after `LoadPolicy(at, p)` or `RemovePolicy(at)` the
decision cache holds no entry whose key begins with `"at:"`. -/
theorem policy_update_invalidates (e : EngineM) (agentType : String)
    (policy : CompiledPolicyM) :
    ((loadPolicy e agentType policy).cache.entries.all
        (fun kv => !(hasPref kv.1 (agentType ++ ":")))) = true ∧
    ((removePolicy e agentType).cache.entries.all
        (fun kv => !(hasPref kv.1 (agentType ++ ":")))) = true := by
  exact ⟨invalidatePref_clears e.cache (agentType ++ ":"),
         invalidatePref_clears e.cache (agentType ++ ":")⟩

/-- C8.  Two back-to-back `Evaluate` calls for the same
`(agent_type, tool)` — the first on a fresh key, the second within the
TTL, with no policy change and unchanged mode between them — return
equal decisions, and the second call's audit event is marked cached. -/
theorem cache_soundness (e : EngineM) (t1 t2 : Nat) (agent : AgentContextM)
    (toolName : String) (request : Request)
    (hfresh : lookupA e.cache.entries (cacheKey agent.agentType toolName) = none)
    (httl : t2 ≤ t1 + e.cache.ttl)
    (haudit : e.hasAudit = true) :
    (evaluate (evaluate e t1 agent toolName request).state t2 agent toolName
        request).returned = (evaluate e t1 agent toolName request).returned ∧
    (evaluate (evaluate e t1 agent toolName request).state t2 agent toolName
        request).underlying =
      (evaluate e t1 agent toolName request).underlying ∧
    (evaluate (evaluate e t1 agent toolName request).state t2 agent toolName
        request).events =
      [{ agent := agent, tool := toolName,
         decision := (evaluate e t1 agent toolName request).underlying,
         reason := (evaluate e t1 agent toolName request).reason,
         cached := true }] := by
  obtain ⟨d, r, heq⟩ := evaluate_miss e t1 agent toolName request hfresh
  rw [heq]
  set key := cacheKey agent.agentType toolName with hkey
  have hstate : (finishEval e agent toolName d r false
      (cacheSet e.cache t1 key d r)).state =
      { e with cache := cacheSet e.cache t1 key d r } := rfl
  have hget : cacheGet (cacheSet e.cache t1 key d r) t2 key =
      { decision := d, reason := r, hit := true,
        cache := cacheSet e.cache t1 key d r } := by
    unfold cacheGet cacheSet
    dsimp only
    rw [lookupA_storeA_self]
    dsimp only
    rw [if_neg (Nat.not_lt.mpr httl)]
  have h2 : evaluate (finishEval e agent toolName d r false
        (cacheSet e.cache t1 key d r)).state t2 agent toolName request =
      finishEval { e with cache := cacheSet e.cache t1 key d r } agent toolName
        d r true (cacheSet e.cache t1 key d r) := by
    rw [hstate]
    simp only [evaluate]
    rw [← hkey, hget]
    rfl
  rw [h2]
  refine ⟨rfl, rfl, ?_⟩
  simp [finishEval, haudit]

/-- C8 witness: a concrete default-allow policy evaluated twice in a row
inside the TTL. -/
theorem cache_soundness_witness :
    (evaluate
        (evaluate
          { policies := [("a", compilePolicy "p" ["a"] Allow [] Enforcing "" 0)],
            cache := newDecisionCache 60, hasAudit := true,
            mode := Enforcing, useOPA := false, opaEval := none }
          0 { agentType := "a" } "file.read" Request.nonMap).state
        1 { agentType := "a" } "file.read" Request.nonMap).events =
      [{ agent := { agentType := "a" }, tool := "file.read",
         decision := (evaluate
            { policies := [("a", compilePolicy "p" ["a"] Allow [] Enforcing "" 0)],
              cache := newDecisionCache 60, hasAudit := true,
              mode := Enforcing, useOPA := false, opaEval := none }
            0 { agentType := "a" } "file.read" Request.nonMap).underlying,
         reason := (evaluate
            { policies := [("a", compilePolicy "p" ["a"] Allow [] Enforcing "" 0)],
              cache := newDecisionCache 60, hasAudit := true,
              mode := Enforcing, useOPA := false, opaEval := none }
            0 { agentType := "a" } "file.read" Request.nonMap).reason,
         cached := true }] := by
  exact (cache_soundness
    { policies := [("a", compilePolicy "p" ["a"] Allow [] Enforcing "" 0)],
      cache := newDecisionCache 60, hasAudit := true,
      mode := Enforcing, useOPA := false, opaEval := none }
    0 1 { agentType := "a" } "file.read" Request.nonMap
    rfl (by decide) rfl).2.2

/-! ## Claim theorems: compilation and tool names -/

theorem lookupA_storeA_ne {α : Type} (l : List (String × α))
    (k k' : String) (v : α) (hne : k ≠ k') :
    lookupA (storeA l k' v) k = lookupA l k := by
  induction l with
  | nil => simp [storeA, lookupA, Ne.symm hne]
  | cons hd tl ih =>
      obtain ⟨a, b⟩ := hd
      by_cases hak' : a = k'
      · subst hak'
        simp [storeA, lookupA, Ne.symm hne]
      · by_cases hak : a = k <;> simp [storeA, lookupA, hak', hak, hne, ih]

theorem lookupA_storeA_isSome {α : Type} (l : List (String × α))
    (k k' : String) (v : α) (h : (lookupA l k).isSome = true) :
    (lookupA (storeA l k' v) k).isSome = true := by
  by_cases hkk : k = k'
  · subst hkk
    rw [lookupA_storeA_self]
    rfl
  · rw [lookupA_storeA_ne l k k' v hkk]
    exact h

theorem foldl_store_keeps {α : Type} (f : α → String)
    (perms : List α) (init : List (String × α)) (k : String)
    (h : (lookupA init k).isSome = true) :
    (lookupA (perms.foldl (fun t q => storeA t (f q) q) init) k).isSome = true := by
  induction perms generalizing init with
  | nil => exact h
  | cons q rest ih =>
      exact ih (storeA init (f q) q) (lookupA_storeA_isSome init k (f q) q h)

theorem foldl_store_covers {α : Type} (f : α → String)
    (perms : List α) (init : List (String × α)) (p : α) (hp : p ∈ perms) :
    (lookupA (perms.foldl (fun t q => storeA t (f q) q) init) (f p)).isSome
      = true := by
  induction perms generalizing init with
  | nil => cases hp
  | cons q rest ih =>
      rcases List.mem_cons.mp hp with hq | hrest
      · subst hq
        exact foldl_store_keeps f rest (storeA init (f p) p) (f p)
          (by rw [lookupA_storeA_self]; rfl)
      · exact ih (storeA init (f q) q) hrest

/-- C2 counterexample.  `"File.Read"` violates the tool-name pattern
`^[a-z][a-z0-9]*(\.[a-z][a-z0-9]*)*$`, yet `CompilePolicy` — which has
no failure path at all — still produces a `CompiledPolicy` whose tool
table carries the invalid name. -/
theorem compile_accepts_invalid_tool_name :
    validToolName "File.Read" = false ∧
    (compilePolicy "p" ["coding-assistant"] Deny
        [{ tool := "File.Read", action := Allow }] Enforcing "" 0).toolTable =
      [("File.Read", { tool := "File.Read", action := Allow })] := by
  decide

/-- C2 amended.  Policy compilation never validates tool names:
`CompilePolicy` succeeds on every permission list (its table always holds
an entry for each listed tool, valid or not), and `CompilePolicyWithOPA`
fails exactly when the external Rego preparation fails — never because of
a tool name.  The tool-name pattern is only declared as a schema
validation marker on the policy resource, enforced outside this code. -/
theorem compilation_never_validates_tool_names :
    (∀ (name : String) (ats : List String) (da : Decision)
        (perms : List ToolPermission) (mode : EnforcementMode)
        (lbl : String) (now : Nat), ∀ p ∈ perms,
        (lookupA (compilePolicy name ats da perms mode lbl now).toolTable
            p.tool).isSome = true) ∧
    (∀ (name : String) (ats : List String) (da : Decision)
        (perms : List ToolPermission) (mode : EnforcementMode)
        (lbl rm : String) (now : Nat)
        (prepare : String → Except String (OPAInputM → QueryOutcome)),
        (∃ pol, compilePolicyWithOPA name ats da perms mode lbl rm now prepare
            = Except.ok pol) ↔ (∃ q, prepare rm = Except.ok q)) := by
  constructor
  · intro name ats da perms mode lbl now p hp
    exact foldl_store_covers ToolPermission.tool perms [] p hp
  · intro name ats da perms mode lbl rm now prepare
    unfold compilePolicyWithOPA
    cases hq : prepare rm with
    | error msg => simp
    | ok q => simp

/-- C2 amended witness: the invalid name `"File.Read"` is accepted and
retrievable from the compiled table. -/
theorem compilation_never_validates_tool_names_witness :
    (lookupA (compilePolicy "p" ["a"] Deny
        [{ tool := "File.Read", action := Allow }] Enforcing "" 0).toolTable
      "File.Read").isSome = true :=
  compilation_never_validates_tool_names.1 "p" ["a"] Deny
    [{ tool := "File.Read", action := Allow }] Enforcing "" 0
    { tool := "File.Read", action := Allow } (by simp)

/-! ## Claim theorems: path glob semantics -/

/-- C4 counterexample.  With `path_patterns = ["/workspace/**"]` the
constraint check rejects the path `"/workspace"` itself:
`filepath.Match` demands a character after `"/workspace/"`, and the
directory check demands the `"/workspace/"` start, which `"/workspace"`
lacks. -/
theorem path_glob_root_rejected :
    checkConstraints { pathPatterns := ["/workspace/**"] }
      (Request.map [("path", ParamVal.str "/workspace")]) = false := by
  decide

/-- C4 amended.  With `path_patterns = ["/workspace/**"]` the check
accepts `"/workspace/x"` and `"/workspace/a/b/c"` but rejects
`"/workspace"` itself (the directory-prefix match requires the path to
begin with `"/workspace/"`); with `["/tmp/*"]` it accepts `"/tmp/foo"`
and rejects `"/tmp/a/b"`. -/
theorem path_glob_semantics :
    checkConstraints { pathPatterns := ["/workspace/**"] }
      (Request.map [("path", ParamVal.str "/workspace/x")]) = true ∧
    checkConstraints { pathPatterns := ["/workspace/**"] }
      (Request.map [("path", ParamVal.str "/workspace/a/b/c")]) = true ∧
    checkConstraints { pathPatterns := ["/workspace/**"] }
      (Request.map [("path", ParamVal.str "/workspace")]) = false ∧
    checkConstraints { pathPatterns := ["/tmp/*"] }
      (Request.map [("path", ParamVal.str "/tmp/foo")]) = true ∧
    checkConstraints { pathPatterns := ["/tmp/*"] }
      (Request.map [("path", ParamVal.str "/tmp/a/b")]) = false := by
  decide

/-! ## Claim theorems: OPA result interpretation -/

theorem extractFromObj_skip_mts (fields : List (String × JVal))
    (hmts : lookupA fields "mts" ≠ some (JVal.bool false)) :
    extractFromObj fields =
      (match lookupA fields "deny" with
       | some (JVal.bool true) => (Deny, reasonOf fields)
       | _ =>
           match lookupA fields "allow" with
           | some (JVal.bool true) => (Allow, reasonOf fields)
           | _ => (Deny, "denied by default: " ++ reasonOf fields)) := by
  unfold extractFromObj
  rcases h1 : lookupA fields "mts" with _ | v1
  · rfl
  · rcases v1 with b | s | n | fs | _
    · rcases b with _ | _
      · exact absurd h1 hmts
      · rfl
    · rfl
    · rfl
    · rfl
    · rfl

theorem extractFromObj_skip_deny (fields : List (String × JVal))
    (hmts : lookupA fields "mts" ≠ some (JVal.bool false))
    (hdeny : lookupA fields "deny" ≠ some (JVal.bool true)) :
    extractFromObj fields =
      (match lookupA fields "allow" with
       | some (JVal.bool true) => (Allow, reasonOf fields)
       | _ => (Deny, "denied by default: " ++ reasonOf fields)) := by
  rw [extractFromObj_skip_mts fields hmts]
  rcases h2 : lookupA fields "deny" with _ | v2
  · rfl
  · rcases v2 with b | s | n | fs | _
    · rcases b with _ | _
      · rfl
      · exact absurd h2 hdeny
    · rfl
    · rfl
    · rfl
    · rfl

/-- C9.  The engine's interpretation of an OPA evaluation outcome is
fail-closed and ordered: an empty result set, an empty expression list or
a value of unexpected dynamic type yields `Deny`; a plain boolean yields
`Allow` iff it is true; for a record, an `mts` field that is present and
false denies with `"MTS violation: <r>"`, else a true `deny` field denies
with the record's reason, else a true `allow` field allows with the
record's reason, and otherwise the result is `Deny` with
`"denied by default: <r>"` (`<r>` being the record's reason, which
defaults to `"policy decision"`). -/
theorem opa_result_interpretation :
    (∀ (ev : OPAEvaluatorM) (agent : AgentContextM) (toolName : String)
        (req : List (String × ParamVal)) (policy : OPAPolicyM),
        lookupA ev.policies agent.agentType = some policy →
        policy.query (opaInputOf agent toolName req policy) =
          QueryOutcome.ok [] →
        opaEvaluate ev agent toolName req =
          (Deny, "OPA returned no results", false)) ∧
    (∀ r : RegoResultM, r.expressions = [] →
        extractDecision r = (Deny, "no expressions in OPA result")) ∧
    (∀ (s : String) (rest : List JVal),
        extractDecision ⟨JVal.str s :: rest⟩ =
          (Deny, "unexpected OPA result type")) ∧
    (∀ (n : Int) (rest : List JVal),
        extractDecision ⟨JVal.num n :: rest⟩ =
          (Deny, "unexpected OPA result type")) ∧
    (∀ rest : List JVal,
        extractDecision ⟨JVal.other :: rest⟩ =
          (Deny, "unexpected OPA result type")) ∧
    (∀ (b : Bool) (rest : List JVal),
        ((extractDecision ⟨JVal.bool b :: rest⟩).1 = Allow ↔ b = true)) ∧
    (∀ (fields : List (String × JVal)) (rest : List JVal),
        lookupA fields "mts" = some (JVal.bool false) →
        extractDecision ⟨JVal.obj fields :: rest⟩ =
          (Deny, "MTS violation: " ++ reasonOf fields)) ∧
    (∀ (fields : List (String × JVal)) (rest : List JVal),
        lookupA fields "mts" ≠ some (JVal.bool false) →
        lookupA fields "deny" = some (JVal.bool true) →
        extractDecision ⟨JVal.obj fields :: rest⟩ = (Deny, reasonOf fields)) ∧
    (∀ (fields : List (String × JVal)) (rest : List JVal),
        lookupA fields "mts" ≠ some (JVal.bool false) →
        lookupA fields "deny" ≠ some (JVal.bool true) →
        lookupA fields "allow" = some (JVal.bool true) →
        extractDecision ⟨JVal.obj fields :: rest⟩ = (Allow, reasonOf fields)) ∧
    (∀ (fields : List (String × JVal)) (rest : List JVal),
        lookupA fields "mts" ≠ some (JVal.bool false) →
        lookupA fields "deny" ≠ some (JVal.bool true) →
        lookupA fields "allow" ≠ some (JVal.bool true) →
        extractDecision ⟨JVal.obj fields :: rest⟩ =
          (Deny, "denied by default: " ++ reasonOf fields)) := by
  refine ⟨?_, ?_, ?_, ?_, ?_, ?_, ?_, ?_, ?_, ?_⟩
  · intro ev agent toolName req policy hpol hq
    simp only [opaEvaluate, hpol, hq]
  · intro r hr
    unfold extractDecision
    rw [hr]
  · intro s rest
    rfl
  · intro n rest
    rfl
  · intro rest
    rfl
  · intro b rest
    cases b <;> simp [extractDecision]
  · intro fields rest h
    show extractFromObj fields = _
    unfold extractFromObj
    rw [h]
  · intro fields rest hmts hdeny
    show extractFromObj fields = _
    rw [extractFromObj_skip_mts fields hmts, hdeny]
  · intro fields rest hmts hdeny hallow
    show extractFromObj fields = _
    rw [extractFromObj_skip_deny fields hmts hdeny, hallow]
  · intro fields rest hmts hdeny hallow
    rw [show extractDecision ⟨JVal.obj fields :: rest⟩ = extractFromObj fields
      from rfl]
    rw [extractFromObj_skip_deny fields hmts hdeny]
    rcases h3 : lookupA fields "allow" with _ | v3
    · rfl
    · rcases v3 with b | s | n | fs | _
      · rcases b with _ | _
        · rfl
        · exact absurd h3 hallow
      · rfl
      · rfl
      · rfl
      · rfl

/-- C9 witness: a record with `deny = true` and a reason, behind an
evaluator whose query returns it, denies with that reason; and a query
returning the empty result set denies with `"OPA returned no results"`. -/
theorem opa_result_interpretation_witness :
    opaEvaluate
        { policies :=
            [("a", { name := "p", agentTypes := ["a"],
                     query := fun _ => QueryOutcome.ok [],
                     regoModule := "", mtsLabel := "", mode := Enforcing,
                     compiledAt := 0 })],
          mode := Enforcing }
        { agentType := "a" } "file.read" [] =
      (Deny, "OPA returned no results", false) ∧
    extractDecision
        ⟨[JVal.obj [("deny", JVal.bool true), ("reason", JVal.str "nope")]]⟩ =
      (Deny, "nope") := by
  constructor
  · exact opa_result_interpretation.1
      { policies :=
          [("a", { name := "p", agentTypes := ["a"],
                   query := fun _ => QueryOutcome.ok [],
                   regoModule := "", mtsLabel := "", mode := Enforcing,
                   compiledAt := 0 })],
        mode := Enforcing }
      { agentType := "a" } "file.read" [] _ rfl rfl
  · have h := opa_result_interpretation.2.2.2.2.2.2.2.1
      [("deny", JVal.bool true), ("reason", JVal.str "nope")] []
      (by simp [lookupA]) (by simp [lookupA])
    rw [h]
    rfl

/-! ## Claim theorems: MTS dominance -/

theorem dropWhile_head_not {α : Type} (p : α → Bool) (l : List α)
    (x : α) (xs : List α) (h : l.dropWhile p = x :: xs) : p x = false := by
  induction l with
  | nil => simp [List.dropWhile] at h
  | cons a rest ih =>
      rw [List.dropWhile_cons] at h
      by_cases hp : p a
      · simp [hp] at h
        exact ih h
      · simp [hp] at h
        rw [← h.1]
        exact Bool.of_not_eq_true hp

theorem dropWhile_suffix {α : Type} (p : α → Bool) (l : List α) :
    (l.dropWhile p).IsSuffix l :=
  ⟨l.takeWhile p, List.takeWhile_append_dropWhile p l⟩

theorem containsAll_iff (b : List Int) : ∀ (a : List Int),
    a.Sorted (· < ·) → b.Sorted (· < ·) →
    (containsAll a b = true ↔ ∀ y ∈ b, y ∈ a) := by
  induction b with
  | nil =>
      intro a _ _
      simp [containsAll]
  | cons y ys ih =>
      intro a ha hb
      have hys : ys.Sorted (· < ·) := (List.sorted_cons.mp hb).2
      have hyel : ∀ z ∈ ys, y < z := (List.sorted_cons.mp hb).1
      have hmem : ∀ z, z ∈ a ↔
          z ∈ a.takeWhile (fun x => x < y) ∨
          z ∈ a.dropWhile (fun x => x < y) := by
        intro z
        conv_lhs => rw [← List.takeWhile_append_dropWhile
          (p := fun x => decide (x < y)) (l := a)]
        exact List.mem_append
      have htake : ∀ z ∈ a.takeWhile (fun x => x < y), z < y := by
        intro z hz
        have := List.mem_takeWhile_imp hz
        exact of_decide_eq_true this
      cases hd : a.dropWhile (fun x => x < y) with
      | nil =>
          have hg0 : containsAll a (y :: ys) = false := by
            rw [containsAll, hd]
          rw [hg0]
          simp only [Bool.false_eq_true, false_iff]
          intro hall
          have hy : y ∈ a := hall y (List.mem_cons_self y ys)
          rcases (hmem y).mp hy with hyt | hyd
          · exact absurd (htake y hyt) (lt_irrefl y)
          · rw [hd] at hyd
            cases hyd
      | cons x xs =>
          have hnotlt : ¬ (x < y) :=
            of_decide_eq_false (dropWhile_head_not _ a x xs hd)
          have hdsub : (x :: xs).Sublist a := by
            rw [← hd]
            exact (dropWhile_suffix _ a).sublist
          have hdsorted : (x :: xs).Sorted (· < ·) := ha.sublist hdsub
          have hg1 : containsAll a (y :: ys) =
              (decide (x = y) && containsAll (x :: xs) ys) := by
            rw [containsAll, hd]
          rw [hg1]
          by_cases hxy : x = y
          · have hbx : (decide (x = y) && containsAll (x :: xs) ys) =
                containsAll (x :: xs) ys := by simp [hxy]
            rw [hbx, ih (x :: xs) hdsorted hys]
            constructor
            · intro hsub z hz
              rcases List.mem_cons.mp hz with hzy | hzys
              · rw [hzy, ← hxy]
                exact hdsub.subset (List.mem_cons_self x xs)
              · exact hdsub.subset (hsub z hzys)
            · intro hall z hz
              have hza : z ∈ a := hall z (List.mem_cons_of_mem y hz)
              rcases (hmem z).mp hza with hzt | hzd
              · exact absurd (htake z hzt) (not_lt_of_gt (hyel z hz))
              · rw [hd] at hzd
                exact hzd
          · have hbx : (decide (x = y) && containsAll (x :: xs) ys) = false := by
              simp [hxy]
            rw [hbx]
            simp only [Bool.false_eq_true, false_iff]
            intro hall
            have hy : y ∈ a := hall y (List.mem_cons_self y ys)
            rcases (hmem y).mp hy with hyt | hyd
            · exact absurd (htake y hyt) (lt_irrefl y)
            · rw [hd] at hyd
              rcases List.mem_cons.mp hyd with hyx | hyxs
              · exact hxy hyx.symm
              · exact absurd ((List.sorted_cons.mp hdsorted).1 y hyxs) hnotlt

/-- C5.  For labels whose category lists are sorted ascending (hence
duplicate-free), `CanAccess` decides exactly MCS dominance: the subject's
sensitivity is at least the object's, and the subject's categories are a
superset of the object's unless the subject has none, in which case the
object must have none; a nil subject or nil object always grants. -/
theorem mts_dominance :
    (∀ o : Option MTSLabel, canAccess none o = true) ∧
    (∀ s : Option MTSLabel, canAccess s none = true) ∧
    (∀ (s o : MTSLabel), s.categories.Sorted (· < ·) →
      o.categories.Sorted (· < ·) →
      (canAccess (some s) (some o) = true ↔
        (o.sensitivity ≤ s.sensitivity ∧
          (if s.categories = [] then o.categories = []
           else ∀ c ∈ o.categories, c ∈ s.categories)))) := by
  refine ⟨?_, ?_, ?_⟩
  · intro o
    cases o <;> rfl
  · intro s
    cases s <;> rfl
  · intro s o hs ho
    unfold canAccess
    by_cases hsens : s.sensitivity < o.sensitivity
    · simp only [hsens, if_true]
      constructor
      · intro h
        cases h
      · intro h
        exact absurd h.1 (not_le_of_gt hsens)
    · have hle : o.sensitivity ≤ s.sensitivity := le_of_not_gt hsens
      simp only [hsens, if_false]
      by_cases hse : s.categories = []
      · simp [hse, List.isEmpty_iff, hle]
      · have hsne : s.categories.isEmpty = false := by
          simp [List.isEmpty_iff, hse]
        by_cases hoe : o.categories = []
        · simp [hse, hoe, hsne, hle]
        · have hone : o.categories.isEmpty = false := by
            simp [List.isEmpty_iff, hoe]
          simp only [hsne, Bool.false_eq_true, if_false, hone, hse, if_false]
          rw [containsAll_iff o.categories s.categories hs ho]
          simp [hle]

/-- C5 witness: the specification's dominance scenarios at concrete
labels. -/
theorem mts_dominance_witness :
    canAccess (some ⟨0, [42, 100, 108]⟩) (some ⟨0, [42, 108]⟩) = true :=
  (mts_dominance.2.2 ⟨0, [42, 100, 108]⟩ ⟨0, [42, 108]⟩
    (by decide) (by decide)).mpr (by decide)

/-! ## Claim theorems: label canonicalization -/

theorem digitChar_toNat (d : Nat) (h : d < 10) :
    (digitChar d).toNat = 48 + d := by
  interval_cases d <;> decide

theorem isDigitB_digitChar (d : Nat) (h : d < 10) :
    isDigitB (digitChar d) = true := by
  interval_cases d <;> decide

theorem isDigitB_toNat {c : Char} (h : isDigitB c = true) :
    48 ≤ c.toNat ∧ c.toNat ≤ 57 := by
  unfold isDigitB at h
  rw [Bool.and_eq_true, decide_eq_true_eq, decide_eq_true_eq] at h
  exact h

theorem char_ne_of_toNat_ne {a b : Char} (h : a.toNat ≠ b.toNat) : a ≠ b :=
  fun he => h (he ▸ rfl)

theorem natToCharsAux_irrel (n : Nat) : ∀ (fuel fuel' : Nat) (acc : List Char),
    n < fuel → n < fuel' →
    natToCharsAux fuel n acc = natToCharsAux fuel' n acc := by
  induction n using Nat.strong_induction_on with
  | _ n ih =>
      intro fuel fuel' acc hf hf'
      match fuel, fuel' with
      | f + 1, f' + 1 =>
          rw [natToCharsAux, natToCharsAux]
          by_cases h10 : n < 10
          · simp [h10]
          · simp only [h10, if_false]
            exact ih (n / 10) (Nat.div_lt_self (by omega) (by omega)) f f' _
              (by omega) (by omega)

theorem natToCharsAux_acc (fuel : Nat) : ∀ (n : Nat) (acc : List Char),
    natToCharsAux fuel n acc = natToCharsAux fuel n [] ++ acc := by
  induction fuel with
  | zero => intro n acc; rfl
  | succ f ih =>
      intro n acc
      rw [natToCharsAux, natToCharsAux]
      by_cases h10 : n < 10
      · simp [h10]
      · simp only [h10, if_false]
        rw [ih (n / 10) (digitChar (n % 10) :: acc),
            ih (n / 10) [digitChar (n % 10)], List.append_assoc]
        rfl

/-- The recursion `natToChars` satisfies (digits of `n / 10`, then the
last digit). -/
theorem natToChars_eq (n : Nat) :
    natToChars n =
      if n < 10 then [digitChar n]
      else natToChars (n / 10) ++ [digitChar (n % 10)] := by
  unfold natToChars
  rw [natToCharsAux]
  by_cases h10 : n < 10
  · simp [h10]
  · simp only [h10, if_false]
    rw [natToCharsAux_acc n (n / 10) [digitChar (n % 10)]]
    congr 1
    exact natToCharsAux_irrel (n / 10) n (n / 10 + 1) []
      (Nat.div_lt_self (by omega) (by omega)) (Nat.lt_succ_self _)

theorem natToChars_all_digits (n : Nat) :
    ∀ c ∈ natToChars n, isDigitB c = true := by
  induction n using Nat.strong_induction_on with
  | _ n ih =>
      rw [natToChars_eq]
      by_cases h10 : n < 10
      · simp only [h10, if_true, List.mem_singleton]
        intro c hc
        rw [hc]
        exact isDigitB_digitChar n h10
      · simp only [h10, if_false]
        intro c hc
        rcases List.mem_append.mp hc with h | h
        · exact ih (n / 10) (Nat.div_lt_self (by omega) (by omega)) c h
        · rw [List.mem_singleton.mp h]
          exact isDigitB_digitChar (n % 10) (Nat.mod_lt n (by omega))

theorem natToChars_ne_nil (n : Nat) : natToChars n ≠ [] := by
  rw [natToChars_eq]
  by_cases h10 : n < 10 <;> simp [h10]

theorem foldl_natToChars (n : Nat) : ∀ a : Nat,
    (natToChars n).foldl (fun a c => a * 10 + (c.toNat - 48)) a =
      a * 10 ^ (natToChars n).length + n := by
  induction n using Nat.strong_induction_on with
  | _ n ih =>
      intro a
      rw [natToChars_eq]
      by_cases h10 : n < 10
      · simp only [h10, if_true, List.foldl_cons, List.foldl_nil,
          List.length_singleton, pow_one]
        rw [digitChar_toNat n h10]
        omega
      · simp only [h10, if_false, List.foldl_append, List.foldl_cons,
          List.foldl_nil, List.length_append, List.length_singleton]
        rw [ih (n / 10) (Nat.div_lt_self (by omega) (by omega)) a,
            digitChar_toNat (n % 10) (Nat.mod_lt n (by omega))]
        rw [pow_succ]
        have : (a * (10 ^ (natToChars (n / 10)).length * 10)) =
            (a * 10 ^ (natToChars (n / 10)).length) * 10 := by ring
        rw [this]
        omega

theorem valOfDigits_natToChars (n : Nat) : valOfDigits (natToChars n) = n := by
  unfold valOfDigits
  rw [foldl_natToChars n 0]
  simp

theorem parseDigits_natToChars (n : Nat) :
    parseDigits (natToChars n) = some n := by
  unfold parseDigits
  rw [if_neg (natToChars_ne_nil n),
      if_pos (List.all_eq_true.mpr (fun c hc => natToChars_all_digits n c hc)),
      valOfDigits_natToChars]

theorem goAtoi_natToChars (n : Nat) (h : n ≤ maxInt64) :
    goAtoi (natToChars n) = some (n : Int) := by
  obtain ⟨c, rest, hcons⟩ : ∃ c rest, natToChars n = c :: rest := by
    cases hn : natToChars n with
    | nil => exact absurd hn (natToChars_ne_nil n)
    | cons c rest => exact ⟨c, rest, rfl⟩
  have hdig : isDigitB c = true :=
    natToChars_all_digits n c (hcons ▸ List.mem_cons_self c rest)
  have hbounds := isDigitB_toNat hdig
  rw [hcons, goAtoi]
  rw [if_neg (char_ne_of_toNat_ne (by simp only [show ('+').toNat = 43 from rfl]; omega)),
      if_neg (char_ne_of_toNat_ne (by simp only [show ('-').toNat = 45 from rfl]; omega))]
  rw [← hcons, parseDigits_natToChars]
  simp [h]

theorem intToChars_nonneg (i : Int) (h : 0 ≤ i) :
    intToChars i = natToChars i.toNat := by
  unfold intToChars
  rw [if_neg (not_lt.mpr h)]

theorem goAtoi_intToChars (i : Int) (h0 : 0 ≤ i) (hm : i ≤ (maxInt64 : Int)) :
    goAtoi (intToChars i) = some i := by
  rw [intToChars_nonneg i h0, goAtoi_natToChars i.toNat (by omega)]
  congr 1
  omega

theorem dropWhile_eq_self {α : Type} (p : α → Bool) (l : List α)
    (h : ∀ c ∈ l, p c = false) : l.dropWhile p = l := by
  cases l with
  | nil => rfl
  | cons a rest =>
      rw [List.dropWhile_cons, h a (List.mem_cons_self a rest)]
      simp

theorem trimChars_eq_self (cs : List Char)
    (h : ∀ c ∈ cs, isWSB c = false) : trimChars cs = cs := by
  unfold trimChars
  rw [dropWhile_eq_self _ _ h,
      dropWhile_eq_self _ _ (fun c hc => h c (List.mem_reverse.mp hc)),
      List.reverse_reverse]

theorem dropWhile_append_all {α : Type} (p : α → Bool) (pre l : List α)
    (h : ∀ c ∈ pre, p c = true) :
    (pre ++ l).dropWhile p = l.dropWhile p := by
  induction pre with
  | nil => rfl
  | cons a pre' ih =>
      rw [List.cons_append, List.dropWhile_cons,
        h a (List.mem_cons_self a pre')]
      exact ih (fun c hc => h c (List.mem_cons_of_mem a hc))

theorem dropWhile_append_split {α : Type} (p : α → Bool) (l₁ l₂ : List α) :
    (l₁ ++ l₂).dropWhile p =
      if (l₁.dropWhile p).isEmpty then l₂.dropWhile p
      else l₁.dropWhile p ++ l₂ := by
  induction l₁ with
  | nil => simp
  | cons a l₁' ih =>
      rw [List.cons_append, List.dropWhile_cons, List.dropWhile_cons]
      cases hpa : p a with
      | true => simpa using ih
      | false => simp

theorem dropWhile_all_true {α : Type} (p : α → Bool) (l : List α)
    (h : ∀ c ∈ l, p c = true) : l.dropWhile p = [] := by
  induction l with
  | nil => rfl
  | cons a rest ih =>
      rw [List.dropWhile_cons, h a (List.mem_cons_self a rest)]
      simp only [if_true]
      exact ih (fun c hc => h c (List.mem_cons_of_mem a hc))

theorem trimChars_pad (pre post cs : List Char)
    (hpre : ∀ c ∈ pre, isWSB c = true) (hpost : ∀ c ∈ post, isWSB c = true) :
    trimChars (pre ++ cs ++ post) = trimChars cs := by
  unfold trimChars
  rw [List.append_assoc, dropWhile_append_all _ pre (cs ++ post) hpre,
      dropWhile_append_split isWSB cs post]
  cases hY : cs.dropWhile isWSB with
  | nil =>
      simp only [hY, List.isEmpty_nil, if_true, List.reverse_nil,
        List.dropWhile_nil]
      rw [dropWhile_all_true isWSB post hpost]
      rfl
  | cons y ys =>
      simp only [List.isEmpty_cons, if_false, Bool.false_eq_true]
      rw [List.reverse_append,
        dropWhile_append_all _ post.reverse (y :: ys).reverse
          (fun c hc => hpost c (List.mem_reverse.mp hc))]

theorem splitFirst_of_not_mem (sep : Char) (cs : List Char) (h : sep ∉ cs) :
    splitFirst sep cs = none := by
  induction cs with
  | nil => rfl
  | cons c rest ih =>
      rw [splitFirst]
      rw [if_neg (fun hc : c = sep =>
            h (by rw [← hc]; exact List.mem_cons_self c rest)),
          ih (fun hm => h (List.mem_cons_of_mem c hm))]
      rfl

theorem splitFirst_append (sep : Char) (a b : List Char) (h : sep ∉ a) :
    splitFirst sep (a ++ sep :: b) = some (a, b) := by
  induction a with
  | nil => simp [splitFirst]
  | cons c a' ih =>
      rw [List.cons_append, splitFirst,
        if_neg (fun hc : c = sep =>
          h (by rw [← hc]; exact List.mem_cons_self c a')),
        ih (fun hm => h (List.mem_cons_of_mem c hm))]
      rfl

theorem splitOnChar_not_mem (sep : Char) (cs : List Char) (h : sep ∉ cs) :
    splitOnChar sep cs = [cs] := by
  induction cs with
  | nil => rfl
  | cons c rest ih =>
      rw [splitOnChar]
      simp only [if_neg (fun hc : c = sep =>
          h (by rw [← hc]; exact List.mem_cons_self c rest)),
        ih (fun hm => h (List.mem_cons_of_mem c hm))]

theorem splitOnChar_sep_append (sep : Char) (p t : List Char) (hp : sep ∉ p) :
    splitOnChar sep (p ++ sep :: t) = p :: splitOnChar sep t := by
  induction p with
  | nil => simp [splitOnChar]
  | cons c p' ih =>
      rw [List.cons_append, splitOnChar]
      simp only [if_neg (fun hc : c = sep =>
          hp (by rw [← hc]; exact List.mem_cons_self c p')),
        ih (fun hm => hp (List.mem_cons_of_mem c hm))]

theorem joinComma_split (parts : List (List Char)) (hne : parts ≠ [])
    (hsep : ∀ p ∈ parts, (',' : Char) ∉ p) :
    splitOnChar ',' (joinComma parts) = parts := by
  induction parts with
  | nil => exact absurd rfl hne
  | cons p rest ih =>
      cases rest with
      | nil =>
          rw [joinComma,
            splitOnChar_not_mem ',' p (hsep p (List.mem_cons_self p []))]
      | cons q qs =>
          have hj : joinComma (p :: q :: qs) = p ++ ',' :: joinComma (q :: qs) :=
            rfl
          rw [hj, splitOnChar_sep_append ',' p _
            (hsep p (List.mem_cons_self p (q :: qs)))]
          rw [ih (fun h => List.noConfusion h)
            (fun r hr => hsep r (List.mem_cons_of_mem p hr))]

theorem joinComma_cons_ne_nil (q : List Char) (qs : List (List Char))
    (hq : q ≠ []) : joinComma (q :: qs) ≠ [] := by
  cases qs with
  | nil => simpa [joinComma] using hq
  | cons r rs => simp [joinComma]

theorem maxInt64_cast : (maxInt64 : Int) = 9223372036854775807 := rfl

theorem maxCategory_eq : maxCategory = 1023 := rfl

theorem isWSB_false_of_digit {c : Char} (h : isDigitB c = true) :
    isWSB c = false := by
  have hb := isDigitB_toNat h
  unfold isWSB
  simp only [Bool.or_eq_false_iff, decide_eq_false_iff_not]
  omega

theorem goAtoi_le (cs : List Char) (v : Int) (h : goAtoi cs = some v) :
    v ≤ (maxInt64 : Int) := by
  unfold goAtoi at h
  match cs with
  | [] => exact Option.noConfusion h
  | c :: rest =>
      dsimp only at h
      by_cases hplus : c = '+'
      · rw [if_pos hplus] at h
        cases hpd : parseDigits rest with
        | none => rw [hpd] at h; exact Option.noConfusion h
        | some n =>
            rw [hpd] at h
            dsimp only [Option.bind] at h
            split at h
            · rename_i hcond
              rw [show maxInt64 = 9223372036854775807 from rfl] at hcond
              rw [← Option.some_inj.mp h, maxInt64_cast]
              omega
            · exact Option.noConfusion h
      · rw [if_neg hplus] at h
        by_cases hminus : c = '-'
        · rw [if_pos hminus] at h
          cases hpd : parseDigits rest with
          | none => rw [hpd] at h; exact Option.noConfusion h
          | some n =>
              rw [hpd] at h
              dsimp only [Option.bind] at h
              split at h
              · rename_i hcond
                rw [show maxInt64 + 1 = 9223372036854775808 from rfl] at hcond
                rw [← Option.some_inj.mp h, maxInt64_cast]
                omega
              · exact Option.noConfusion h
        · rw [if_neg hminus] at h
          cases hpd : parseDigits (c :: rest) with
          | none => rw [hpd] at h; exact Option.noConfusion h
          | some n =>
              rw [hpd] at h
              dsimp only [Option.bind] at h
              split at h
              · rename_i hcond
                rw [show maxInt64 = 9223372036854775807 from rfl] at hcond
                rw [← Option.some_inj.mp h, maxInt64_cast]
                omega
              · exact Option.noConfusion h

theorem parseSens_format (sens : Int) (h0 : 0 ≤ sens)
    (hm : sens ≤ (maxInt64 : Int)) :
    parseSens ('s' :: intToChars sens) = Except.ok sens := by
  rw [parseSens]
  rw [if_pos rfl, goAtoi_intToChars sens h0 hm]
  exact if_neg (not_lt.mpr h0)

theorem parseSens_ok_inv (p0 : List Char) (sens : Int)
    (h : parseSens p0 = Except.ok sens) :
    0 ≤ sens ∧ sens ≤ (maxInt64 : Int) := by
  unfold parseSens at h
  match p0 with
  | [] => exact Except.noConfusion h
  | ch :: sensStr =>
      dsimp only at h
      split at h
      · cases hat : goAtoi sensStr with
        | none => rw [hat] at h; exact Except.noConfusion h
        | some s =>
            rw [hat] at h
            dsimp only at h
            split at h
            · exact Except.noConfusion h
            · rename_i hneg
              have hs : s = sens := Except.ok.inj h
              subst hs
              exact ⟨not_lt.mp hneg, goAtoi_le sensStr s hat⟩
      · exact Except.noConfusion h

theorem parseCat_format (c : Int) (h0 : 0 ≤ c) (hm : c ≤ maxCategory) :
    parseCat ('c' :: intToChars c) = Except.ok c := by
  have hmax : c ≤ (maxInt64 : Int) := by
    rw [maxInt64_cast]
    rw [maxCategory_eq] at hm
    omega
  have htrim : trimChars ('c' :: intToChars c) = 'c' :: intToChars c := by
    apply trimChars_eq_self
    intro ch hch
    rcases List.mem_cons.mp hch with hc | hc
    · rw [hc]; rfl
    · rw [intToChars_nonneg c h0] at hc
      exact isWSB_false_of_digit (natToChars_all_digits _ ch hc)
  unfold parseCat
  rw [htrim]
  dsimp only
  rw [if_pos rfl, goAtoi_intToChars c h0 hmax]
  dsimp only
  rw [if_neg]
  simp only [Bool.or_eq_true, decide_eq_true_eq, not_or, not_lt]
  rw [maxCategory_eq] at hm ⊢
  omega

theorem parseCat_ok_inv (cs : List Char) (n : Int)
    (h : parseCat cs = Except.ok n) : 0 ≤ n ∧ n ≤ maxCategory := by
  unfold parseCat at h
  match htr : trimChars cs with
  | [] => rw [htr] at h; exact Except.noConfusion h
  | ch :: numStr =>
      rw [htr] at h
      dsimp only at h
      split at h
      · cases hat : goAtoi numStr with
        | none => rw [hat] at h; exact Except.noConfusion h
        | some m =>
            rw [hat] at h
            dsimp only at h
            split at h
            · exact Except.noConfusion h
            · rename_i hcond
              have hm : m = n := Except.ok.inj h
              subst hm
              simp only [Bool.or_eq_true, decide_eq_true_eq, not_or,
                not_lt] at hcond
              exact ⟨hcond.1, hcond.2⟩
      · exact Except.noConfusion h

theorem parseCats_format (cats : List Int)
    (h : ∀ c ∈ cats, 0 ≤ c ∧ c ≤ maxCategory) :
    parseCats (cats.map (fun c => 'c' :: intToChars c)) = Except.ok cats := by
  induction cats with
  | nil => rfl
  | cons c rest ih =>
      have hc := h c (List.mem_cons_self c rest)
      rw [List.map_cons, parseCats, parseCat_format c hc.1 hc.2,
        ih (fun x hx => h x (List.mem_cons_of_mem c hx))]

theorem parseCats_ok_inv (parts : List (List Char)) : ∀ (ns : List Int),
    parseCats parts = Except.ok ns → ∀ n ∈ ns, 0 ≤ n ∧ n ≤ maxCategory := by
  induction parts with
  | nil =>
      intro ns h n hn
      rw [parseCats] at h
      rw [← Except.ok.inj h] at hn
      cases hn
  | cons p rest ih =>
      intro ns h n hn
      rw [parseCats] at h
      cases hp : parseCat p with
      | error e => rw [hp] at h; exact Except.noConfusion h
      | ok m =>
          rw [hp] at h
          dsimp only at h
          cases hr : parseCats rest with
          | error e => rw [hr] at h; exact Except.noConfusion h
          | ok ms =>
              rw [hr] at h
              dsimp only at h
              rw [← Except.ok.inj h] at hn
              rcases List.mem_cons.mp hn with hnm | hnms
              · rw [hnm]
                exact parseCat_ok_inv p m hp
              · exact ih ms hr n hnms

theorem dedup_eq_self : ∀ (cs : List Int) (prev : Int),
    cs.Sorted (· < ·) → (∀ x ∈ cs, prev < x) → dedupSorted cs prev = cs := by
  intro cs
  induction cs with
  | nil => intro prev _ _; rfl
  | cons c rest ih =>
      intro prev hs hall
      have hcp : c ≠ prev := ne_of_gt (hall c (List.mem_cons_self c rest))
      rw [dedupSorted, if_pos hcp,
        ih c (List.sorted_cons.mp hs).2 (List.sorted_cons.mp hs).1]

theorem dedup_sorted : ∀ (cs : List Int) (prev : Int),
    cs.Sorted (· ≤ ·) → (∀ x ∈ cs, prev ≤ x) →
    (dedupSorted cs prev).Sorted (· < ·) ∧
      ∀ x ∈ dedupSorted cs prev, prev < x ∧ x ∈ cs := by
  intro cs
  induction cs with
  | nil =>
      intro prev _ _
      exact ⟨List.sorted_nil, fun x hx => absurd hx (List.not_mem_nil x)⟩
  | cons c rest ih =>
      intro prev hs hall
      have hrs : rest.Sorted (· ≤ ·) := (List.sorted_cons.mp hs).2
      have hcr : ∀ x ∈ rest, c ≤ x := (List.sorted_cons.mp hs).1
      by_cases hcp : c = prev
      · rw [dedupSorted, if_neg (by simpa using hcp)]
        obtain ⟨h1, h2⟩ := ih prev hrs (fun x hx => hcp ▸ hcr x hx)
        exact ⟨h1, fun x hx =>
          ⟨(h2 x hx).1, List.mem_cons_of_mem c (h2 x hx).2⟩⟩
      · have hplt : prev < c :=
          lt_of_le_of_ne (hall c (List.mem_cons_self c rest))
            (fun he => hcp he.symm)
        rw [dedupSorted, if_pos hcp]
        obtain ⟨h1, h2⟩ := ih c hrs hcr
        refine ⟨List.sorted_cons.mpr ⟨fun x hx => (h2 x hx).1, h1⟩, ?_⟩
        intro x hx
        rcases List.mem_cons.mp hx with hxc | hxd
        · exact ⟨hxc ▸ hplt, hxc ▸ List.mem_cons_self c rest⟩
        · exact ⟨lt_trans hplt (h2 x hxd).1,
            List.mem_cons_of_mem c (h2 x hxd).2⟩

theorem uniqueSorted_eq_self (cats : List Int) (hs : cats.Sorted (· < ·))
    (hnn : ∀ c ∈ cats, 0 ≤ c) : uniqueSorted cats = cats := by
  unfold uniqueSorted
  by_cases hnil : cats = []
  · rw [if_pos hnil]
  · rw [if_neg hnil,
      List.Sorted.insertionSort_eq (hs.imp (fun h => le_of_lt h)),
      dedup_eq_self cats (-1) hs (fun x hx => by
        have := hnn x hx
        omega)]

theorem uniqueSorted_props (cats : List Int) (hnn : ∀ c ∈ cats, 0 ≤ c) :
    (uniqueSorted cats).Sorted (· < ·) ∧
      ∀ x ∈ uniqueSorted cats, x ∈ cats := by
  unfold uniqueSorted
  by_cases hnil : cats = []
  · rw [if_pos hnil]
    subst hnil
    exact ⟨List.sorted_nil, fun x hx => hx⟩
  · rw [if_neg hnil]
    have hperm := List.perm_insertionSort (· ≤ ·) cats
    have hsorted : (cats.insertionSort (· ≤ ·)).Sorted (· ≤ ·) :=
      List.sorted_insertionSort (· ≤ ·) cats
    have hge : ∀ x ∈ cats.insertionSort (· ≤ ·), (-1 : Int) ≤ x := by
      intro x hx
      have := hnn x (hperm.mem_iff.mp hx)
      omega
    obtain ⟨h1, h2⟩ := dedup_sorted (cats.insertionSort (· ≤ ·)) (-1)
      hsorted hge
    exact ⟨h1, fun x hx => hperm.mem_iff.mp (h2 x hx).2⟩

theorem mem_joinComma (parts : List (List Char)) (ch : Char)
    (h : ch ∈ joinComma parts) : ch = ',' ∨ ∃ p ∈ parts, ch ∈ p := by
  induction parts with
  | nil => cases h
  | cons p rest ih =>
      cases rest with
      | nil =>
          exact Or.inr ⟨p, List.mem_cons_self p [], h⟩
      | cons q qs =>
          have hj : joinComma (p :: q :: qs) = p ++ ',' :: joinComma (q :: qs) :=
            rfl
          rw [hj] at h
          rcases List.mem_append.mp h with hp | hrest
          · exact Or.inr ⟨p, List.mem_cons_self p (q :: qs), hp⟩
          · rcases List.mem_cons.mp hrest with hcomma | hmore
            · exact Or.inl hcomma
            · rcases ih hmore with hc | ⟨r, hr, hchr⟩
              · exact Or.inl hc
              · exact Or.inr ⟨r, List.mem_cons_of_mem p hr, hchr⟩

theorem format_parse_ok (l : MTSLabel) (hv : validLabel l) :
    parseMTSLabel (labelChars l) = Except.ok l := by
  obtain ⟨hs0, hsmax, hsorted, hrange⟩ := hv
  have hsens_digits : ∀ c ∈ intToChars l.sensitivity, isDigitB c = true := by
    rw [intToChars_nonneg _ hs0]
    exact natToChars_all_digits _
  have hhead_nonWS : ∀ c ∈ 's' :: intToChars l.sensitivity, isWSB c = false := by
    intro c hc
    rcases List.mem_cons.mp hc with hcs | hcd
    · rw [hcs]; rfl
    · exact isWSB_false_of_digit (hsens_digits c hcd)
  have hhead_nocolon : (':' : Char) ∉ 's' :: intToChars l.sensitivity := by
    intro hmem
    rcases List.mem_cons.mp hmem with hcs | hcd
    · exact absurd hcs (by decide)
    · have := isDigitB_toNat (hsens_digits _ hcd)
      revert this
      decide
  by_cases hcats : l.categories = []
  · have hlabel : labelChars l = 's' :: intToChars l.sensitivity := by
      unfold labelChars
      rw [if_pos hcats]
    rw [hlabel]
    unfold parseMTSLabel
    rw [if_neg (fun he => List.noConfusion he),
        trimChars_eq_self _ hhead_nonWS]
    unfold parseTrimmed
    rw [splitFirst_of_not_mem ':' _ hhead_nocolon]
    dsimp only
    rw [parseSens_format l.sensitivity hs0 hsmax]
    dsimp only
    have hl : (⟨l.sensitivity, []⟩ : MTSLabel) = l := by
      cases l with
      | mk sv cv =>
          dsimp only at hcats ⊢
          rw [hcats]
    rw [hl]
  · have hcatmem : ∀ p ∈ l.categories.map (fun c => 'c' :: intToChars c),
        ∃ c ∈ l.categories, p = 'c' :: intToChars c := by
      intro p hp
      rcases List.mem_map.mp hp with ⟨c, hc, hpc⟩
      exact ⟨c, hc, hpc.symm⟩
    have hcat_chars : ∀ p ∈ l.categories.map (fun c => 'c' :: intToChars c),
        ∀ ch ∈ p, ch = 'c' ∨ isDigitB ch = true := by
      intro p hp ch hch
      obtain ⟨c, hc, hpc⟩ := hcatmem p hp
      rw [hpc] at hch
      rcases List.mem_cons.mp hch with h1 | h2
      · exact Or.inl h1
      · rw [intToChars_nonneg c (hrange c hc).1] at h2
        exact Or.inr (natToChars_all_digits _ ch h2)
    have hcat_nocomma : ∀ p ∈ l.categories.map (fun c => 'c' :: intToChars c),
        (',' : Char) ∉ p := by
      intro p hp hmem
      rcases hcat_chars p hp ',' hmem with h1 | h2
      · exact absurd h1 (by decide)
      · have := isDigitB_toNat h2
        revert this
        decide
    have hjoin_ne :
        joinComma (l.categories.map (fun c => 'c' :: intToChars c)) ≠ [] := by
      cases hcl : l.categories with
      | nil => exact absurd hcl hcats
      | cons c cs =>
          rw [List.map_cons]
          exact joinComma_cons_ne_nil _ _ (fun he => List.noConfusion he)
    have hlabel : labelChars l = ('s' :: intToChars l.sensitivity) ++
        ':' :: joinComma (l.categories.map (fun c => 'c' :: intToChars c)) := by
      unfold labelChars
      rw [if_neg hcats]
    have hall_nonWS : ∀ c ∈ ('s' :: intToChars l.sensitivity) ++
        ':' :: joinComma (l.categories.map (fun c => 'c' :: intToChars c)),
        isWSB c = false := by
      intro c hc
      rcases List.mem_append.mp hc with h1 | h2
      · exact hhead_nonWS c h1
      · rcases List.mem_cons.mp h2 with h3 | h4
        · rw [h3]; rfl
        · rcases mem_joinComma _ c h4 with h5 | ⟨p, hp, hcp⟩
          · rw [h5]; rfl
          · rcases hcat_chars p hp c hcp with h6 | h7
            · rw [h6]; rfl
            · exact isWSB_false_of_digit h7
    rw [hlabel]
    unfold parseMTSLabel
    rw [if_neg (by simp), trimChars_eq_self _ hall_nonWS]
    unfold parseTrimmed
    rw [splitFirst_append ':' _ _ hhead_nocolon]
    dsimp only
    rw [parseSens_format l.sensitivity hs0 hsmax]
    dsimp only
    rw [if_neg hjoin_ne,
        joinComma_split _ (by simpa using hcats) hcat_nocomma,
        parseCats_format l.categories hrange]
    dsimp only
    rw [uniqueSorted_eq_self l.categories hsorted
      (fun c hc => (hrange c hc).1)]

theorem parseTrimmed_ok_valid (s : List Char) (l : MTSLabel)
    (h : parseTrimmed s = Except.ok l) : validLabel l := by
  unfold parseTrimmed at h
  cases hsp : splitFirst ':' s with
  | none =>
      rw [hsp] at h
      dsimp only at h
      cases hps : parseSens s with
      | error e => rw [hps] at h; exact Except.noConfusion h
      | ok sens =>
          rw [hps] at h
          dsimp only at h
          rw [← Except.ok.inj h]
          obtain ⟨h1, h2⟩ := parseSens_ok_inv s sens hps
          exact ⟨h1, h2, List.sorted_nil, fun c hc => absurd hc (List.not_mem_nil c)⟩
  | some ab =>
      obtain ⟨p0, p1⟩ := ab
      rw [hsp] at h
      dsimp only at h
      cases hps : parseSens p0 with
      | error e => rw [hps] at h; exact Except.noConfusion h
      | ok sens =>
          rw [hps] at h
          dsimp only at h
          obtain ⟨h1, h2⟩ := parseSens_ok_inv p0 sens hps
          split at h
          · rw [← Except.ok.inj h]
            exact ⟨h1, h2, List.sorted_nil,
              fun c hc => absurd hc (List.not_mem_nil c)⟩
          · cases hpc : parseCats (splitOnChar ',' p1) with
            | error e => rw [hpc] at h; exact Except.noConfusion h
            | ok cats =>
                rw [hpc] at h
                dsimp only at h
                rw [← Except.ok.inj h]
                have hbounds := parseCats_ok_inv _ cats hpc
                obtain ⟨hsor, hmem⟩ := uniqueSorted_props cats
                  (fun c hc => (hbounds c hc).1)
                exact ⟨h1, h2, hsor,
                  fun c hc => hbounds c (hmem c hc)⟩

theorem parse_ok_valid (cs : List Char) (l : MTSLabel)
    (h : parseMTSLabel cs = Except.ok l) : validLabel l := by
  unfold parseMTSLabel at h
  by_cases hnil : cs = []
  · rw [if_pos hnil] at h
    have hl : l = ⟨0, []⟩ := (Except.ok.inj h).symm
    subst hl
    refine ⟨le_refl 0, ?_, List.sorted_nil,
      fun c hc => absurd hc (List.not_mem_nil c)⟩
    rw [maxInt64_cast]
    decide
  · rw [if_neg hnil] at h
    exact parseTrimmed_ok_valid _ l h

/-- C6.  Label canonicalization: formatting a valid label (non-negative
`int64` sensitivity, categories strictly ascending within
`[0, MaxCategory]`) and parsing it back yields the label unchanged; every
successful parse produces such a canonical label — duplicates discarded,
categories sorted ascending — so `format (parse s)` is the canonical form
of `s` and re-parses to the same label; and surrounding whitespace around
a (non-empty) label string does not change the parse. -/
theorem label_canonicalization :
    (∀ l : MTSLabel, validLabel l →
        parseMTSLabel (labelChars l) = Except.ok l) ∧
    (∀ (cs : List Char) (l : MTSLabel), parseMTSLabel cs = Except.ok l →
        validLabel l ∧ parseMTSLabel (labelChars l) = Except.ok l) ∧
    (∀ (pre post cs : List Char) (l : MTSLabel),
        pre.all isWSB = true → post.all isWSB = true → cs ≠ [] →
        parseMTSLabel cs = Except.ok l →
        parseMTSLabel (pre ++ cs ++ post) = Except.ok l) := by
  refine ⟨format_parse_ok, ?_, ?_⟩
  · intro cs l h
    have hv := parse_ok_valid cs l h
    exact ⟨hv, format_parse_ok l hv⟩
  · intro pre post cs l hpre hpost hne h
    unfold parseMTSLabel at h ⊢
    rw [if_neg hne] at h
    rw [if_neg (by simp [hne]),
        trimChars_pad pre post cs
          (fun c hc => List.all_eq_true.mp hpre c hc)
          (fun c hc => List.all_eq_true.mp hpost c hc)]
    exact h

/-- C6 witness: parsing a padded, unsorted, duplicated label string
yields the canonical label, which formats and re-parses exactly. -/
theorem label_canonicalization_witness :
    parseMTSLabel (labelChars ⟨0, [42, 108]⟩) =
      Except.ok ⟨0, [42, 108]⟩ :=
  (label_canonicalization.2.1 " s0:c108, c42, c42 ".data ⟨0, [42, 108]⟩
    rfl).2

end AgentPolicy
